import Mathlib

/-!
Verification of the precision-safe value-object core of `txova-go-types`:
the `money` package (fixed-point MZN currency stored as an integer count of
centavos) and the `ids` package (16-byte random identifiers with dual text
encodings).

Modelling conventions:
* Go strings and byte slices are modelled as `List Nat` of byte values.
* Go `int64` / `int` arithmetic is modelled with unbounded `Int`; the spec
  (§9) explicitly leaves 64-bit overflow behaviour open, and no claim in
  scope depends on wraparound.
* Go's truncating `/` and `%` on integers are `Int.tdiv` / `Int.tmod`.
* Fallible Go functions returning `(T, error)` become `Except` or
  `T × Option Err`, matching which of the two results callers consume.
-/

namespace money

/-- The sentinel error values of the money package. -/
inductive MoneyErr where
  | invalidAmount
  | divisionByZero
  | negativeSplit
  | invalidPercentage
deriving DecidableEq, Repr

/-- `Money` stores an MZN amount as a count of centavos (source: `money.Money`). -/
structure Money where
  centavos : Int
deriving DecidableEq, Repr

/-- `money.Zero()`. -/
def Zero : Money := ⟨0⟩

/-- `money.FromCentavos`. -/
def FromCentavos (centavos : Int) : Money := ⟨centavos⟩

/-- `Money.Add`. -/
def Money.Add (m other : Money) : Money := ⟨m.centavos + other.centavos⟩

/-- `Money.Subtract`. -/
def Money.Subtract (m other : Money) : Money := ⟨m.centavos - other.centavos⟩

/-- `Money.Percentage`: `(centavos * rate) / 100` with round-half-away-from-zero,
returning Go's `(Money, error)` pair. -/
def Money.Percentage (m : Money) (rate : Int) : Money × Option MoneyErr :=
  if rate < 0 ∨ 100 < rate then (Zero, some .invalidPercentage)
  else
    let product := m.centavos * rate
    let result := product.tdiv 100
    let remainder := product.tmod 100
    let result := if 50 ≤ remainder then result + 1
                  else if remainder ≤ -50 then result - 1
                  else result
    (⟨result⟩, none)

/-- `Money.Split`: divide into `n` parts, remainder (normalised non-negative)
distributed one centavo each to the leftmost parts. -/
def Money.Split (m : Money) (n : Int) : Except MoneyErr (List Money) :=
  if n ≤ 0 then .error .negativeSplit
  else
    let base0 := m.centavos.tdiv n
    let rem0 := m.centavos.tmod n
    let base := if rem0 < 0 then base0 - 1 else base0
    let rem := if rem0 < 0 then rem0 + n else rem0
    .ok ((List.range n.toNat).map fun (i : ℕ) => if (i : Int) < rem then ⟨base + 1⟩ else ⟨base⟩)

/-! ### Arithmetic helper lemmas -/

/-- Truncating remainder of a negated dividend is the negated remainder. -/
theorem tmod_neg_dividend (a b : Int) : (-a).tmod b = -(a.tmod b) := by
  rw [Int.tmod_def, Int.tmod_def, Int.neg_tdiv]
  ring

/-- For a positive divisor the truncating remainder is strictly above `-b`. -/
theorem neg_lt_tmod (a : Int) {b : Int} (hb : 0 < b) : -b < a.tmod b := by
  have h := Int.tmod_lt_of_pos (-a) hb
  rw [tmod_neg_dividend] at h
  omega

/-- A non-positive dividend has a non-positive truncating remainder. -/
theorem tmod_nonpos_of_nonpos {a : Int} (b : Int) (ha : a ≤ 0) : a.tmod b ≤ 0 := by
  have h := Int.tmod_nonneg (a := -a) b (by omega)
  rw [tmod_neg_dividend] at h
  omega

/-- Sum of `N` copies of `q`, with the first `k` bumped by one. -/
theorem sum_range_bump (N k : ℕ) (q : Int) :
    ((List.range N).map (fun (i : ℕ) => if (i : Int) < (k : ℤ) then q + 1 else q)).sum
      = (N : Int) * q + (min k N : ℕ) := by
  induction N with
  | zero => simp
  | succ N ih =>
    rw [List.range_succ, List.map_append, List.sum_append]
    simp only [List.map_cons, List.map_nil, List.sum_cons, List.sum_nil, ih]
    rcases le_or_lt k N with h | h
    · rw [if_neg (by exact_mod_cast not_lt.mpr (by exact_mod_cast h))]
      have h1 : min k N = k := min_eq_left h
      have h2 : min k (N + 1) = k := min_eq_left (by omega)
      rw [h1, h2]; push_cast; ring
    · rw [if_pos (by exact_mod_cast h)]
      have h1 : min k N = N := min_eq_right (by omega)
      have h2 : min k (N + 1) = N + 1 := min_eq_right (by omega)
      rw [h1, h2]; push_cast; ring

/-- C1: for every amount `a` and every `n > 0`, `Split` succeeds with exactly
`n` parts summing exactly to `a`, the first `a mod n` (normalised
non-negative, i.e. `a.emod n`) parts getting one extra centavo; for `n ≤ 0`
it returns the validation error and no parts. -/
theorem split_spec (m : Money) (n : Int) :
    (0 < n → ∃ (l : List Money) (q : Int),
      m.Split n = .ok l ∧ (l.length : Int) = n ∧
      (l.map Money.centavos).sum = m.centavos ∧
      ∀ (i : ℕ) (h : i < l.length), (l.get ⟨i, h⟩).centavos =
        if (i : Int) < m.centavos.emod n then q + 1 else q) ∧
    (n ≤ 0 → m.Split n = .error .negativeSplit) := by
  constructor
  · intro hn
    set a := m.centavos with ha
    set base0 := a.tdiv n with hbase0
    set rem0 := a.tmod n with hrem0
    set base : Int := if rem0 < 0 then base0 - 1 else base0 with hbase
    set rem : Int := if rem0 < 0 then rem0 + n else rem0 with hrem
    have hsplit : m.Split n =
        .ok ((List.range n.toNat).map fun (i : ℕ) =>
          if (i : Int) < rem then ⟨base + 1⟩ else ⟨base⟩) := by
      rw [Money.Split, if_neg (by omega)]
    have hrem_nonneg : 0 ≤ rem := by
      rcases lt_or_le rem0 0 with h | h
      · have := neg_lt_tmod a hn
        rw [← hrem0] at this
        simp only [hrem, if_pos h]; omega
      · simp only [hrem, if_neg (not_lt.mpr h)]; omega
    have hrem_lt : rem < n := by
      have hlt := Int.tmod_lt_of_pos a hn
      rw [← hrem0] at hlt
      rcases lt_or_le rem0 0 with h | h
      · simp only [hrem, if_pos h]; omega
      · simp only [hrem, if_neg (not_lt.mpr h)]; omega
    have hdecomp : rem + n * base = a := by
      have h0 := Int.tmod_add_tdiv a n
      rw [← hrem0, ← hbase0] at h0
      rcases lt_or_le rem0 0 with h | h
      · simp only [hrem, hbase, if_pos h]; ring_nf; ring_nf at h0; omega
      · simp only [hrem, hbase, if_neg (not_lt.mpr h)]; omega
    have hemod : a.emod n = rem := by
      have := (Int.ediv_emod_unique (a := a) (b := n) (r := rem) (q := base) hn).mpr
        ⟨hdecomp, hrem_nonneg, hrem_lt⟩
      exact this.2
    refine ⟨_, base, hsplit, ?_, ?_, ?_⟩
    · simp [Int.toNat_of_nonneg (le_of_lt hn)]
    · rw [List.map_map]
      have hfun : (Money.centavos ∘ fun i : ℕ =>
          if (i : Int) < rem then (⟨base + 1⟩ : Money) else ⟨base⟩)
          = fun i : ℕ => if (i : Int) < (rem.toNat : ℤ) then base + 1 else base := by
        funext i
        simp only [Function.comp_apply, Int.toNat_of_nonneg hrem_nonneg]
        split <;> rfl
      rw [hfun, sum_range_bump]
      have hmin : min rem.toNat n.toNat = rem.toNat := by
        apply min_eq_left; omega
      rw [hmin]
      rw [Int.toNat_of_nonneg (le_of_lt hn), Int.toNat_of_nonneg hrem_nonneg]
      omega
    · intro i h
      have hi : i < n.toNat := by simpa using h
      rw [List.get_eq_getElem]
      simp only [List.getElem_map, List.getElem_range]
      rw [hemod]
      split <;> rfl
  · intro hn
    rw [Money.Split, if_pos hn]

/-- C1 witness: splitting 10001 centavos three ways. -/
theorem split_spec_witness :
    Money.Split ⟨10001⟩ 3 = .ok [⟨3334⟩, ⟨3334⟩, ⟨3333⟩] ∧
    (∃ (l : List Money) (q : Int),
      Money.Split ⟨10001⟩ 3 = .ok l ∧ (l.length : Int) = 3 ∧
      (l.map Money.centavos).sum = 10001 ∧
      ∀ (i : ℕ) (h : i < l.length), (l.get ⟨i, h⟩).centavos =
        if (i : Int) < (10001 : Int).emod 3 then q + 1 else q) := by
  refine ⟨by rfl, (split_spec ⟨10001⟩ 3).1 (by decide)⟩

/-- C2: `Percentage` errors (returning the zero value) exactly for rates
outside `[0, 100]`; otherwise it returns the truncated quotient of
`centavos * rate` by 100, rounded away from zero by one when the remainder
has magnitude at least 50; and the two documented examples hold. -/
theorem percentage_spec (m : Money) (rate : Int) :
    (rate < 0 ∨ 100 < rate →
      m.Percentage rate = (Zero, some .invalidPercentage)) ∧
    (0 ≤ rate → rate ≤ 100 →
      (m.Percentage rate).2 = none ∧
      (m.Percentage rate).1.centavos =
        (if 50 ≤ ((m.centavos * rate).tmod 100).natAbs then
          (if m.centavos * rate < 0 then (m.centavos * rate).tdiv 100 - 1
           else (m.centavos * rate).tdiv 100 + 1)
         else (m.centavos * rate).tdiv 100)) ∧
    (FromCentavos 10001).Percentage 50 = (⟨5001⟩, none) ∧
    (FromCentavos 10000).Percentage 15 = (⟨1500⟩, none) := by
  refine ⟨?_, ?_, by decide, by decide⟩
  · intro h
    rw [Money.Percentage, if_pos h]
  · intro h0 h100
    rw [Money.Percentage, if_neg (by omega)]
    set p := m.centavos * rate with hp
    refine ⟨rfl, ?_⟩
    simp only
    rcases le_or_lt 0 p with hpos | hneg
    · have hm := Int.tmod_nonneg (a := p) 100 hpos
      have habs : (p.tmod 100).natAbs = (p.tmod 100).toNat := by omega
      rcases le_or_lt 50 (p.tmod 100) with h50 | h50
      · rw [if_pos h50, if_pos (by omega), if_neg (by omega)]
      · rw [if_neg (by omega), if_neg (by omega), if_neg (by omega)]
    · have hm := tmod_nonpos_of_nonpos (a := p) 100 (by omega)
      rcases le_or_lt (p.tmod 100) (-50) with h50 | h50
      · rw [if_neg (by omega), if_pos h50, if_pos (by omega), if_pos hneg]
      · rw [if_neg (by omega), if_neg (by omega), if_neg (by omega)]

/-- C2 witness: a rate outside the range errors with the zero amount, a rate
inside the range succeeds. -/
theorem percentage_spec_witness :
    (FromCentavos 7).Percentage 101 = (Zero, some .invalidPercentage) ∧
    ((FromCentavos 7).Percentage 99).2 = none :=
  ⟨(percentage_spec ⟨7⟩ 101).1 (by decide),
   (((percentage_spec ⟨7⟩ 99).2.1) (by decide) (by decide)).1⟩

/-! ### Byte-string helpers (Go strings modelled as lists of byte values) -/

/-- ASCII whitespace bytes recognised by `strings.TrimSpace` (all inputs in
scope are ASCII, so multi-byte Unicode whitespace never occurs). -/
def isSpaceByte (c : Nat) : Bool :=
  c = 32 || c = 9 || c = 10 || c = 11 || c = 12 || c = 13

/-- `strings.TrimSpace` on ASCII byte strings. -/
def trimSpace (s : List Nat) : List Nat :=
  ((s.dropWhile isSpaceByte).reverse.dropWhile isSpaceByte).reverse

/-- `strings.TrimSuffix`. -/
def trimSuffix (s suf : List Nat) : List Nat :=
  if suf.length ≤ s.length ∧ s.drop (s.length - suf.length) = suf then
    s.take (s.length - suf.length)
  else s

/-- `strings.Split` with a one-byte separator. -/
def splitChar (c : Nat) : List Nat → List (List Nat)
  | [] => [[]]
  | x :: rest =>
    if x = c then [] :: splitChar c rest
    else
      match splitChar c rest with
      | [] => [[x]]
      | h :: t => (x :: h) :: t

/-- Base-10 digit expansion, fuel-structured so that it reduces in the
kernel; with fuel `n + 1`, `natToDecAux` fully expands `n`. -/
def natToDecAux : Nat → Nat → List Nat
  | 0, _ => []
  | fuel + 1, n =>
    if n < 10 then [48 + n]
    else natToDecAux fuel (n / 10) ++ [48 + n % 10]

/-- Decimal byte string of `n`, no leading zeros: the digit expansion used by
`strconv.FormatInt` / `fmt.Sprintf("%d")` for non-negative values. -/
def natToDec (n : Nat) : List Nat := natToDecAux (n + 1) n

/-- `strconv.FormatInt(i, 10)` (also the JSON encoding of `Money`). -/
def FormatInt (i : Int) : List Nat :=
  if i < 0 then 45 :: natToDec i.natAbs else natToDec i.natAbs

/-- `fmt.Sprintf("%02d", c)`: two-digit zero-padded decimal. -/
def pad2 (c : Nat) : List Nat :=
  if c < 100 then [48 + c / 10, 48 + c % 10] else natToDec c

/-- The byte string " MZN". -/
def strSpaceMZN : List Nat := [32, 77, 90, 78]

/-- The byte string "MZN". -/
def strMZN : List Nat := [77, 90, 78]

/-- Digit-consuming loop of `strconv.ParseUint` (base 10). -/
def goDigits : List Nat → Nat → Option Nat
  | [], acc => some acc
  | c :: rest, acc =>
    if 48 ≤ c ∧ c ≤ 57 then goDigits rest (acc * 10 + (c - 48)) else none

/-- `strconv.ParseUint(s, 10, 64)` modulo the 64-bit range check. -/
def parseUintGo (s : List Nat) : Option Nat :=
  if s = [] then none else goDigits s 0

/-- `strconv.ParseInt(s, 10, 64)` modulo the 64-bit range check: an optional
sign byte followed by at least one decimal digit. -/
def parseIntGo : List Nat → Option Int
  | [] => none
  | c :: rest =>
    if c = 43 then (parseUintGo rest).map (fun n => (n : Int))
    else if c = 45 then (parseUintGo rest).map (fun n => -(n : Int))
    else (parseUintGo (c :: rest)).map (fun n => (n : Int))

/-! ### Money text encoding and decoding -/

/-- `Money.String`: canonical `"<sign><major>.<minor:02d> MZN"` form. -/
def Money.String (m : Money) : List Nat :=
  (if m.centavos < 0 then [45] else []) ++
    natToDec (m.centavos.natAbs / 100) ++ [46] ++
    pad2 (m.centavos.natAbs % 100) ++ strSpaceMZN

/-- `Money.Format`: as `Money.String` but without the currency suffix. -/
def Money.Format (m : Money) : List Nat :=
  (if m.centavos < 0 then [45] else []) ++
    natToDec (m.centavos.natAbs / 100) ++ [46] ++
    pad2 (m.centavos.natAbs % 100)

/-- `Money.MarshalJSON`: centavos as a bare decimal integer string. -/
def Money.MarshalJSON (m : Money) : List Nat := FormatInt m.centavos

/-- Pad or truncate the centavo part of a decimal input to exactly two
digits (`Money.UnmarshalText`, decimal branch). -/
def normCentPart (cp : List Nat) : List Nat :=
  if cp.length = 0 then [48, 48]
  else if cp.length = 1 then cp ++ [48]
  else if 2 < cp.length then cp.take 2
  else cp

/-- Body of `Money.UnmarshalText` after trimming and suffix stripping:
a decimal `major.minor` form when a dot is present (sign read from the
leading byte of the string), otherwise bare integer centavos. -/
def parseMoneyBody (s : List Nat) : Except MoneyErr Money :=
  if s.contains 46 then
    if (splitChar 46 s).length ≠ 2 then .error .invalidAmount
    else
      match parseIntGo ((splitChar 46 s).headD []) with
      | none => .error .invalidAmount
      | some mzn =>
        match parseIntGo (normCentPart ((splitChar 46 s).getD 1 [])) with
        | none => .error .invalidAmount
        | some cents =>
          if s.headD 0 = 45 then .ok ⟨mzn * 100 - cents⟩
          else .ok ⟨mzn * 100 + cents⟩
  else
    match parseIntGo s with
    | none => .error .invalidAmount
    | some centavos => .ok ⟨centavos⟩

/-- `Money.UnmarshalText`: trim, strip an optional `" MZN"`/`"MZN"` suffix,
then parse either a decimal `major.minor` form or bare integer centavos. -/
def Money.UnmarshalText (data : List Nat) : Except MoneyErr Money :=
  let s := trimSpace data
  if s = [] then .ok ⟨0⟩
  else parseMoneyBody (trimSpace (trimSuffix (trimSuffix s strSpaceMZN) strMZN))

/-! ### Byte-string lemma toolkit -/

theorem headD_append {l : List Nat} (l2 : List Nat) (h : l ≠ []) (d : Nat) :
    (l ++ l2).headD d = l.headD d := by
  cases l with
  | nil => exact absurd rfl h
  | cons a t => rfl

theorem getLast?_drop (l : List Nat) (k : ℕ) (h : l.drop k ≠ []) :
    (l.drop k).getLast? = l.getLast? := by
  induction l generalizing k with
  | nil => simp at h
  | cons a t ih =>
    cases k with
    | zero => rfl
    | succ k =>
      simp only [List.drop_succ_cons] at h ⊢
      rw [ih k h]
      cases t with
      | nil => simp at h
      | cons b t2 => rw [List.getLast?_cons_cons]

theorem dropWhile_eq_self_of_head {l : List Nat}
    (h : ∀ c, l.head? = some c → isSpaceByte c = false) :
    l.dropWhile isSpaceByte = l := by
  cases l with
  | nil => rfl
  | cons a t => rw [List.dropWhile_cons, h a rfl]; simp

theorem trimSpace_eq_self {l : List Nat}
    (h1 : ∀ c, l.head? = some c → isSpaceByte c = false)
    (h2 : ∀ c, l.getLast? = some c → isSpaceByte c = false) :
    trimSpace l = l := by
  rw [trimSpace, dropWhile_eq_self_of_head h1, dropWhile_eq_self_of_head
    (fun c hc => h2 c (by rwa [List.head?_reverse] at hc)), List.reverse_reverse]

theorem trimSuffix_append (l suf : List Nat) : trimSuffix (l ++ suf) suf = l := by
  have hlen : (l ++ suf).length - suf.length = l.length := by
    rw [List.length_append]; omega
  rw [trimSuffix, if_pos]
  · rw [hlen, List.take_left]
  · refine ⟨by rw [List.length_append]; omega, ?_⟩
    rw [hlen, List.drop_left]

theorem trimSuffix_noop {l suf : List Nat} {c d : Nat}
    (hl : l.getLast? = some c) (hs : suf.getLast? = some d) (hne : c ≠ d) :
    trimSuffix l suf = l := by
  rw [trimSuffix, if_neg]
  rintro ⟨hlen, hdrop⟩
  have hne2 : l.drop (l.length - suf.length) ≠ [] := by
    rw [hdrop]; intro h; rw [h] at hs; simp at hs
  have hlast := getLast?_drop l (l.length - suf.length) hne2
  rw [hdrop, hs, hl] at hlast
  exact hne (by injection hlast; omega)

theorem splitChar_not_mem {c : Nat} {l : List Nat} (h : c ∉ l) :
    splitChar c l = [l] := by
  induction l with
  | nil => rfl
  | cons x rest ih =>
    have hx : ¬x = c := fun he => h (by rw [he]; exact List.mem_cons_self _ _)
    have hr : c ∉ rest := fun hm => h (List.mem_cons_of_mem _ hm)
    simp only [splitChar, if_neg hx, ih hr]

theorem splitChar_sep {c : Nat} (l1 l2 : List Nat) (h : c ∉ l1) :
    splitChar c (l1 ++ c :: l2) = l1 :: splitChar c l2 := by
  induction l1 with
  | nil => simp [splitChar]
  | cons x t ih =>
    have hx : ¬x = c := fun he => h (by rw [he]; exact List.mem_cons_self _ _)
    have ht : c ∉ t := fun hm => h (List.mem_cons_of_mem _ hm)
    rw [List.cons_append]
    simp only [splitChar, if_neg hx, ih ht]

/-! ### Decimal digit expansion lemmas -/

theorem natToDecAux_ne_nil (fuel n : ℕ) (h : n < fuel) : natToDecAux fuel n ≠ [] := by
  cases fuel with
  | zero => omega
  | succ f =>
    rw [natToDecAux]
    split
    · simp
    · simp

theorem natToDecAux_digits : ∀ (fuel n : ℕ), n < fuel →
    ∀ c ∈ natToDecAux fuel n, 48 ≤ c ∧ c ≤ 57 := by
  intro fuel
  induction fuel with
  | zero => intro n h; omega
  | succ f ih =>
    intro n hn c hc
    rw [natToDecAux] at hc
    by_cases h10 : n < 10
    · rw [if_pos h10] at hc; simp at hc; omega
    · rw [if_neg h10] at hc
      rcases List.mem_append.mp hc with h | h
      · have hd : n / 10 < n := Nat.div_lt_self (by omega) (by omega)
        exact ih (n / 10) (by omega) c h
      · simp at h; omega

theorem natToDecAux_headD : ∀ (fuel n : ℕ), n < fuel → 1 ≤ n →
    (natToDecAux fuel n).headD 0 ≠ 48 := by
  intro fuel
  induction fuel with
  | zero => intro n h; omega
  | succ f ih =>
    intro n hn h1
    rw [natToDecAux]
    by_cases h10 : n < 10
    · rw [if_pos h10]; simp; omega
    · rw [if_neg h10]
      have hd : n / 10 < n := Nat.div_lt_self (by omega) (by omega)
      rw [headD_append _ (natToDecAux_ne_nil f (n / 10) (by omega)) 0]
      exact ih (n / 10) (by omega) (by omega)

theorem goDigits_append (l1 l2 : List Nat) (acc : ℕ) :
    goDigits (l1 ++ l2) acc =
      match goDigits l1 acc with
      | some a => goDigits l2 a
      | none => none := by
  induction l1 generalizing acc with
  | nil => rfl
  | cons c rest ih =>
    rw [List.cons_append]
    simp only [goDigits]
    split
    · exact ih _
    · rfl

theorem goDigits_natToDecAux : ∀ (fuel n : ℕ), n < fuel → ∀ acc : ℕ,
    ∃ D : ℕ, 0 < D ∧ goDigits (natToDecAux fuel n) acc = some (acc * D + n) := by
  intro fuel
  induction fuel with
  | zero => intro n h; omega
  | succ f ih =>
    intro n hn acc
    rw [natToDecAux]
    by_cases h10 : n < 10
    · refine ⟨10, by omega, ?_⟩
      rw [if_pos h10]
      simp only [goDigits]
      rw [if_pos (by omega)]
      congr 1
      omega
    · rw [if_neg h10]
      have hd : n / 10 < n := Nat.div_lt_self (by omega) (by omega)
      obtain ⟨D, hD, hgo⟩ := ih (n / 10) (by omega) acc
      refine ⟨D * 10, by omega, ?_⟩
      rw [goDigits_append, hgo]
      simp only [goDigits]
      rw [if_pos (by omega)]
      congr 1
      rw [← Nat.mul_assoc]
      generalize acc * D = X
      omega

theorem natToDec_ne_nil (n : ℕ) : natToDec n ≠ [] :=
  natToDecAux_ne_nil _ _ (by omega)

theorem natToDec_digits (n : ℕ) : ∀ c ∈ natToDec n, 48 ≤ c ∧ c ≤ 57 :=
  natToDecAux_digits _ _ (by omega)

theorem natToDec_headD (n : ℕ) (h : 1 ≤ n) : (natToDec n).headD 0 ≠ 48 :=
  natToDecAux_headD _ _ (by omega) h

theorem parseUintGo_natToDec (n : ℕ) : parseUintGo (natToDec n) = some n := by
  obtain ⟨D, hD, h⟩ := goDigits_natToDecAux (n + 1) n (by omega) 0
  rw [parseUintGo, if_neg (natToDec_ne_nil n), natToDec, h]
  congr 1
  omega

theorem parseIntGo_of_digit_head {c : Nat} (rest : List Nat)
    (h1 : 48 ≤ c) (h2 : c ≤ 57) :
    parseIntGo (c :: rest) = (parseUintGo (c :: rest)).map (fun n => (n : Int)) := by
  simp only [parseIntGo]
  rw [if_neg (by omega), if_neg (by omega)]

theorem parseIntGo_natToDec (n : ℕ) : parseIntGo (natToDec n) = some (n : Int) := by
  obtain ⟨c, t, hct⟩ : ∃ c t, natToDec n = c :: t := by
    cases hn : natToDec n with
    | nil => exact absurd hn (natToDec_ne_nil n)
    | cons c t => exact ⟨c, t, rfl⟩
  have hc := natToDec_digits n c (by rw [hct]; exact List.mem_cons_self _ _)
  rw [hct, parseIntGo_of_digit_head t hc.1 hc.2, ← hct, parseUintGo_natToDec]
  rfl

theorem parseIntGo_neg_natToDec (n : ℕ) :
    parseIntGo (45 :: natToDec n) = some (-(n : Int)) := by
  simp [parseIntGo, parseUintGo_natToDec]

theorem parseIntGo_plus_natToDec (n : ℕ) :
    parseIntGo (43 :: natToDec n) = some ((n : Int)) := by
  simp [parseIntGo, parseUintGo_natToDec]

theorem parseIntGo_FormatInt (i : Int) : parseIntGo (FormatInt i) = some i := by
  rw [FormatInt]
  by_cases h : i < 0
  · rw [if_pos h, parseIntGo_neg_natToDec]
    congr 1
    omega
  · rw [if_neg h, parseIntGo_natToDec]
    congr 1
    omega

theorem pad2_eq {c : ℕ} (h : c < 100) : pad2 c = [48 + c / 10, 48 + c % 10] :=
  if_pos h

theorem pad2_digits {c : ℕ} (h : c < 100) : ∀ x ∈ pad2 c, 48 ≤ x ∧ x ≤ 57 := by
  rw [pad2_eq h]
  intro x hx
  have h9 : c / 10 ≤ 9 := by omega
  simp at hx
  rcases hx with h1 | h1 <;> omega

theorem pad2_length {c : ℕ} (h : c < 100) : (pad2 c).length = 2 := by
  rw [pad2_eq h]
  rfl

theorem parseIntGo_pad2 {c : ℕ} (h : c < 100) : parseIntGo (pad2 c) = some (c : Int) := by
  have h9 : c / 10 ≤ 9 := by omega
  rw [pad2_eq h, parseIntGo_of_digit_head _ (by omega) (by omega)]
  rw [parseUintGo, if_neg (by simp)]
  simp only [goDigits]
  rw [if_pos (by omega), if_pos (by omega)]
  have hv : (0 * 10 + (48 + c / 10 - 48)) * 10 + (48 + c % 10 - 48) = c := by omega
  rw [hv]
  rfl

theorem isSpaceByte_false {c : Nat} (h : 43 ≤ c) : isSpaceByte c = false := by
  simp [isSpaceByte]; omega

theorem head?_mem {l : List Nat} {c : Nat} (h : l.head? = some c) : c ∈ l := by
  cases l with
  | nil => simp at h
  | cons a t =>
    simp only [List.head?_cons, Option.some_inj] at h
    rw [← h]
    exact List.mem_cons_self _ _

theorem getLast?_mem {l : List Nat} {c : Nat} (h : l.getLast? = some c) : c ∈ l := by
  induction l with
  | nil => simp at h
  | cons a t ih =>
    cases t with
    | nil =>
      simp only [List.getLast?_singleton, Option.some_inj] at h
      rw [← h]; exact List.mem_cons_self _ _
    | cons b t2 =>
      rw [List.getLast?_cons_cons] at h
      exact List.mem_cons_of_mem _ (ih h)

/-- C8: the canonical text form is `"<sign><major>.<minor> MZN"` where the
sign is a literal 45 (never a plus) exactly for negative amounts, the major
part is a nonempty digit string with no leading zero except for the single
digit 0 itself, and the minor part is exactly two digits. -/
theorem string_canonical (m : Money) :
    ∃ sign maj min2 : List Nat,
      m.String = sign ++ maj ++ [46] ++ min2 ++ strSpaceMZN ∧
      sign = (if m.centavos < 0 then [45] else []) ∧
      maj ≠ [] ∧ (∀ c ∈ maj, 48 ≤ c ∧ c ≤ 57) ∧
      (maj.headD 0 = 48 → maj = [48]) ∧
      min2.length = 2 ∧ (∀ c ∈ min2, 48 ≤ c ∧ c ≤ 57) := by
  refine ⟨(if m.centavos < 0 then [45] else []), natToDec (m.centavos.natAbs / 100),
    pad2 (m.centavos.natAbs % 100), rfl, rfl, natToDec_ne_nil _, natToDec_digits _,
    ?_, pad2_length (by omega), pad2_digits (by omega)⟩
  intro h48
  by_cases h : m.centavos.natAbs / 100 = 0
  · rw [h]; rfl
  · exact absurd h48 (natToDec_headD _ (by omega))

theorem headD_digit {l : List Nat} (hne : l ≠ []) (hd : ∀ c ∈ l, 48 ≤ c ∧ c ≤ 57) :
    48 ≤ l.headD 0 ∧ l.headD 0 ≤ 57 := by
  cases l with
  | nil => exact absurd rfl hne
  | cons a t => exact hd a (List.mem_cons_self _ _)

theorem normCentPart_of_len2 {cp : List Nat} (h : cp.length = 2) :
    normCentPart cp = cp := by
  rw [normCentPart, if_neg (by omega), if_neg (by omega), if_neg (by omega)]

/-- Parsing the canonical decimal core (sign, major digits, dot, two-digit
minor) recovers the exact centavo amount. -/
theorem parseMoneyBody_core (m : Money) :
    parseMoneyBody ((if m.centavos < 0 then [45] else []) ++
      (natToDec (m.centavos.natAbs / 100) ++
        ([46] ++ pad2 (m.centavos.natAbs % 100)))) = .ok m := by
  have hmaj : natToDec (m.centavos.natAbs / 100) = natToDec (m.centavos.natAbs / 100) := rfl
  set maj := natToDec (m.centavos.natAbs / 100) with hmajdef
  have hmin2 : pad2 (m.centavos.natAbs % 100) = pad2 (m.centavos.natAbs % 100) := rfl
  set min2 := pad2 (m.centavos.natAbs % 100) with hmin2def
  have hmin2lt : m.centavos.natAbs % 100 < 100 := by omega
  have hmajne : maj ≠ [] := natToDec_ne_nil _
  have hmajdig : ∀ c ∈ maj, 48 ≤ c ∧ c ≤ 57 := natToDec_digits _
  have h46maj : (46 : ℕ) ∉ maj := fun hm => by have := hmajdig _ hm; omega
  have h46min : (46 : ℕ) ∉ min2 := fun hm => by
    have := pad2_digits hmin2lt _ hm; omega
  have hlen2 : min2.length = 2 := pad2_length hmin2lt
  by_cases hneg : m.centavos < 0
  · rw [if_pos hneg]
    have hshape : ([45] ++ (maj ++ ([46] ++ min2)))
        = (45 :: maj) ++ (46 :: min2) := by simp
    rw [hshape]
    have h46sm : (46 : ℕ) ∉ 45 :: maj := by
      intro hm
      rcases List.mem_cons.mp hm with h | h
      · omega
      · exact h46maj h
    have hsplit := splitChar_sep (c := 46) (45 :: maj) min2 h46sm
    rw [splitChar_not_mem h46min] at hsplit
    have hcont : ((45 :: maj) ++ 46 :: min2).contains 46 = true :=
      List.elem_eq_true_of_mem (by simp)
    rw [parseMoneyBody, if_pos hcont, hsplit, if_neg (by simp)]
    have e1 : parseIntGo (45 :: maj)
        = some (-((m.centavos.natAbs / 100 : ℕ) : ℤ)) := by
      rw [hmajdef]
      exact parseIntGo_neg_natToDec _
    have e2 : parseIntGo (normCentPart min2)
        = some ((m.centavos.natAbs % 100 : ℕ) : ℤ) := by
      rw [normCentPart_of_len2 hlen2, hmin2def]
      exact parseIntGo_pad2 hmin2lt
    simp only [List.headD_cons, List.getD_cons_succ, List.getD_cons_zero, e1, e2,
      List.cons_append, Except.ok.injEq, Money.mk.injEq, if_true]
    refine congrArg Money.mk ?_
    omega
  · rw [if_neg hneg]
    have hshape : (([] : List Nat) ++ (maj ++ ([46] ++ min2)))
        = maj ++ (46 :: min2) := by simp
    rw [hshape]
    have hsplit := splitChar_sep (c := 46) maj min2 h46maj
    rw [splitChar_not_mem h46min] at hsplit
    have hcont : (maj ++ 46 :: min2).contains 46 = true :=
      List.elem_eq_true_of_mem (by simp)
    rw [parseMoneyBody, if_pos hcont, hsplit, if_neg (by simp)]
    have e1 : parseIntGo maj
        = some ((m.centavos.natAbs / 100 : ℕ) : ℤ) := by
      rw [hmajdef]
      exact parseIntGo_natToDec _
    have e2 : parseIntGo (normCentPart min2)
        = some ((m.centavos.natAbs % 100 : ℕ) : ℤ) := by
      rw [normCentPart_of_len2 hlen2, hmin2def]
      exact parseIntGo_pad2 hmin2lt
    have hne45 : ¬(maj ++ 46 :: min2).headD 0 = 45 := by
      rw [headD_append _ hmajne 0]
      have := headD_digit hmajne hmajdig
      omega
    simp only [List.headD_cons, List.getD_cons_succ, List.getD_cons_zero, e1, e2]
    rw [if_neg hne45]
    simp only [Except.ok.injEq, Money.mk.injEq]
    refine congrArg Money.mk ?_
    omega

theorem head?_append_left {l : List Nat} (l2 : List Nat) (h : l ≠ []) :
    (l ++ l2).head? = l.head? := by
  cases l with
  | nil => exact absurd rfl h
  | cons a t => rfl

theorem getLast?_of_ne_nil {l : List Nat} (h : l ≠ []) :
    ∃ c, l.getLast? = some c ∧ c ∈ l := by
  cases hl : l.getLast? with
  | none => exact absurd (List.getLast?_eq_none_iff.mp hl) h
  | some c => exact ⟨c, rfl, getLast?_mem hl⟩

theorem pad2_ne_nil {c : ℕ} (h : c < 100) : pad2 c ≠ [] := by
  rw [pad2_eq h]
  simp

theorem format_ne_nil (m : Money) : m.Format ≠ [] := by
  rw [Money.Format]
  intro h
  rcases List.append_eq_nil.mp h with ⟨h1, _⟩
  rcases List.append_eq_nil.mp h1 with ⟨h2, _⟩
  rcases List.append_eq_nil.mp h2 with ⟨_, h3⟩
  exact natToDec_ne_nil _ h3

theorem format_head (m : Money) :
    ∃ c, m.Format.head? = some c ∧ 45 ≤ c ∧ c ≤ 57 := by
  rw [Money.Format]
  by_cases h : m.centavos < 0
  · rw [if_pos h]
    exact ⟨45, rfl, by omega, by omega⟩
  · rw [if_neg h, List.nil_append]
    obtain ⟨c, t, hct⟩ := List.exists_cons_of_ne_nil (natToDec_ne_nil (m.centavos.natAbs / 100))
    have hdig := natToDec_digits (m.centavos.natAbs / 100) c (by rw [hct]; exact List.mem_cons_self _ _)
    rw [hct, List.cons_append]
    exact ⟨c, rfl, by omega, by omega⟩

theorem format_last (m : Money) :
    ∃ c, m.Format.getLast? = some c ∧ 48 ≤ c ∧ c ≤ 57 := by
  rw [Money.Format]
  have hlt : m.centavos.natAbs % 100 < 100 := by omega
  refine ⟨48 + m.centavos.natAbs % 100 % 10, ?_, by omega, by omega⟩
  rw [List.getLast?_append_of_ne_nil _ (pad2_ne_nil hlt), pad2_eq hlt]
  rfl

theorem FormatInt_ne_nil (i : ℤ) : FormatInt i ≠ [] := by
  rw [FormatInt]
  split
  · simp
  · exact natToDec_ne_nil _

theorem FormatInt_head (i : ℤ) :
    ∃ c, (FormatInt i).head? = some c ∧ 45 ≤ c ∧ c ≤ 57 := by
  rw [FormatInt]
  by_cases h : i < 0
  · rw [if_pos h]
    exact ⟨45, rfl, by omega, by omega⟩
  · rw [if_neg h]
    obtain ⟨c, t, hct⟩ := List.exists_cons_of_ne_nil (natToDec_ne_nil i.natAbs)
    have hdig := natToDec_digits i.natAbs c (by rw [hct]; exact List.mem_cons_self _ _)
    rw [hct]
    exact ⟨c, rfl, by omega, by omega⟩

theorem FormatInt_last (i : ℤ) :
    ∃ c, (FormatInt i).getLast? = some c ∧ 48 ≤ c ∧ c ≤ 57 := by
  rw [FormatInt]
  obtain ⟨c, hc, hmem⟩ := getLast?_of_ne_nil (natToDec_ne_nil i.natAbs)
  have hdig := natToDec_digits i.natAbs c hmem
  by_cases h : i < 0
  · rw [if_pos h]
    refine ⟨c, ?_, hdig.1, hdig.2⟩
    have : (45 :: natToDec i.natAbs) = [45] ++ natToDec i.natAbs := rfl
    rw [this, List.getLast?_append_of_ne_nil _ (natToDec_ne_nil _), hc]
  · rw [if_neg h]
    exact ⟨c, hc, hdig.1, hdig.2⟩

theorem FormatInt_no46 (i : ℤ) : (46 : ℕ) ∉ FormatInt i := by
  rw [FormatInt]
  intro hm
  have hdig : ∀ c ∈ natToDec i.natAbs, 48 ≤ c ∧ c ≤ 57 := natToDec_digits _
  split at hm
  · rcases List.mem_cons.mp hm with h | h
    · omega
    · have := hdig _ h; omega
  · have := hdig _ hm; omega

/-- The trim-and-strip pipeline is the identity on a string whose first byte
is printable (≥ 43) and whose last byte is printable and not an `N`. -/
theorem trim_pipeline_noop {l : List Nat} {ch cl : Nat}
    (hh : l.head? = some ch) (hch : 43 ≤ ch)
    (hl : l.getLast? = some cl) (hcl : 43 ≤ cl) (hcl78 : cl ≠ 78) :
    trimSpace l = l ∧
    trimSpace (trimSuffix (trimSuffix (trimSpace l) strSpaceMZN) strMZN) = l := by
  have hts : trimSpace l = l := trimSpace_eq_self
    (fun c hc => by
      rw [hh] at hc
      injection hc with h
      rw [← h]
      exact isSpaceByte_false hch)
    (fun c hc => by
      rw [hl] at hc
      injection hc with h
      rw [← h]
      exact isSpaceByte_false hcl)
  refine ⟨hts, ?_⟩
  rw [hts, trimSuffix_noop hl (show strSpaceMZN.getLast? = some 78 from rfl) hcl78,
    trimSuffix_noop hl (show strMZN.getLast? = some 78 from rfl) hcl78, hts]

/-- The trim-and-strip pipeline sends the canonical suffixed form to the
decimal core (`Money.Format`). -/
theorem trim_pipeline_string (m : Money) :
    trimSpace m.String = m.String ∧
    trimSpace (trimSuffix (trimSuffix (trimSpace m.String) strSpaceMZN) strMZN)
      = m.Format := by
  obtain ⟨ch, hch, hch1, hch2⟩ := format_head m
  obtain ⟨cl, hcl, hcl1, hcl2⟩ := format_last m
  have hstring : m.String = m.Format ++ strSpaceMZN := by
    rw [Money.String, Money.Format]
  have hshead : m.String.head? = some ch := by
    rw [hstring, head?_append_left _ (format_ne_nil m)]
    exact hch
  have hslast : m.String.getLast? = some 78 := by
    rw [hstring, List.getLast?_append_of_ne_nil _ (by simp [strSpaceMZN])]
    rfl
  have hts : trimSpace m.String = m.String := trimSpace_eq_self
    (fun c hc => by
      rw [hshead] at hc
      injection hc with h
      rw [← h]
      exact isSpaceByte_false (by omega))
    (fun c hc => by
      rw [hslast] at hc
      injection hc with h
      rw [← h]
      exact isSpaceByte_false (by omega))
  have htsf : trimSpace m.Format = m.Format := trimSpace_eq_self
    (fun c hc => by
      rw [hch] at hc
      injection hc with h
      rw [← h]
      exact isSpaceByte_false (by omega))
    (fun c hc => by
      rw [hcl] at hc
      injection hc with h
      rw [← h]
      exact isSpaceByte_false (by omega))
  refine ⟨hts, ?_⟩
  rw [hts, hstring, trimSuffix_append,
    trimSuffix_noop hcl (show strMZN.getLast? = some 78 from rfl) (by omega), htsf]

/-- C8 witness: the canonical form of -7 centavos is "-0.07 MZN". -/
theorem string_canonical_witness :
    Money.String ⟨-7⟩ = [45, 48, 46, 48, 55, 32, 77, 90, 78] ∧
    (∃ sign maj min2 : List Nat,
      Money.String ⟨-7⟩ = sign ++ maj ++ [46] ++ min2 ++ strSpaceMZN ∧
      sign = (if (-7 : Int) < 0 then [45] else []) ∧
      maj ≠ [] ∧ (∀ c ∈ maj, 48 ≤ c ∧ c ≤ 57) ∧
      (maj.headD 0 = 48 → maj = [48]) ∧
      min2.length = 2 ∧ (∀ c ∈ min2, 48 ≤ c ∧ c ≤ 57)) :=
  ⟨by rfl, string_canonical ⟨-7⟩⟩

/-- Parsing the decimal core via `Money.Format` recovers the amount. -/
theorem parseMoneyBody_format (m : Money) : parseMoneyBody m.Format = .ok m := by
  have h : m.Format = (if m.centavos < 0 then [45] else []) ++
      (natToDec (m.centavos.natAbs / 100) ++
        ([46] ++ pad2 (m.centavos.natAbs % 100))) := by
    rw [Money.Format]
    simp [List.append_assoc]
  rw [h]
  exact parseMoneyBody_core m

/-- Parsing a bare decimal integer string recovers the centavo count. -/
theorem parseMoneyBody_FormatInt (i : ℤ) : parseMoneyBody (FormatInt i) = .ok ⟨i⟩ := by
  rw [parseMoneyBody, if_neg (fun h => FormatInt_no46 i (List.elem_iff.mp h))]
  simp only [parseIntGo_FormatInt]

/-- C4: `Money.UnmarshalText` inverts each of the three produced text
encodings (canonical suffixed form, suffix-free decimal form, bare integer
centavos) for every amount, and "-0.50" parses to -50 centavos. -/
theorem text_round_trip (m : Money) :
    Money.UnmarshalText m.String = .ok m ∧
    Money.UnmarshalText m.Format = .ok m ∧
    Money.UnmarshalText (Money.MarshalJSON m) = .ok m ∧
    Money.UnmarshalText [45, 48, 46, 53, 48] = .ok ⟨-50⟩ := by
  obtain ⟨ch, hch, hch1, hch2⟩ := format_head m
  obtain ⟨cl, hcl, hcl1, hcl2⟩ := format_last m
  refine ⟨?_, ?_, ?_, by rfl⟩
  · obtain ⟨hts, hpipe⟩ := trim_pipeline_string m
    have hsne : m.String ≠ [] := by
      have hstring : m.String = m.Format ++ strSpaceMZN := by
        rw [Money.String, Money.Format]
      rw [hstring]
      intro h
      rcases List.append_eq_nil.mp h with ⟨_, h2⟩
      simp [strSpaceMZN] at h2
    simp only [Money.UnmarshalText]
    rw [if_neg (by rw [hts]; exact hsne), hpipe]
    exact parseMoneyBody_format m
  · obtain ⟨hts, hpipe⟩ := trim_pipeline_noop hch (by omega) hcl (by omega) (by omega)
    simp only [Money.UnmarshalText]
    rw [if_neg (by rw [hts]; exact format_ne_nil m), hpipe]
    exact parseMoneyBody_format m
  · obtain ⟨ch2, hch2a, hch2b, hch2c⟩ := FormatInt_head m.centavos
    obtain ⟨cl2, hcl2a, hcl2b, hcl2c⟩ := FormatInt_last m.centavos
    obtain ⟨hts, hpipe⟩ := trim_pipeline_noop hch2a (by omega) hcl2a (by omega) (by omega)
    show Money.UnmarshalText (FormatInt m.centavos) = .ok m
    simp only [Money.UnmarshalText]
    rw [if_neg (by rw [hts]; exact FormatInt_ne_nil m.centavos), hpipe]
    exact parseMoneyBody_FormatInt m.centavos

/-- C4 witness: the round trip evaluated at -50 centavos. -/
theorem text_round_trip_witness :
    Money.String ⟨-50⟩ = [45, 48, 46, 53, 48, 32, 77, 90, 78] ∧
    Money.UnmarshalText (Money.String ⟨-50⟩) = .ok ⟨-50⟩ :=
  ⟨by rfl, (text_round_trip ⟨-50⟩).1⟩

theorem goDigits_of_digits : ∀ (l : List Nat), (∀ c ∈ l, 48 ≤ c ∧ c ≤ 57) →
    ∀ acc : ℕ, ∃ v, goDigits l acc = some v := by
  intro l
  induction l with
  | nil => exact fun _ acc => ⟨acc, rfl⟩
  | cons c rest ih =>
    intro hd acc
    have hc := hd c (List.mem_cons_self _ _)
    simp only [goDigits]
    rw [if_pos (by omega)]
    exact ih (fun x hx => hd x (List.mem_cons_of_mem _ hx)) _

/-! ### The int64 range check and wrap-around of the decimal parse path

`strconv.ParseInt(s, 10, 64)` fails with a range error when the parsed
magnitude does not fit `int64`, and the Go expression `mzn*100 ± cents` is
evaluated in wrap-around `int64` arithmetic. The definitions below repeat
the parse path with exactly these two effects of the 64-bit width made
explicit, for the claims that depend on them. -/

/-- Reduction of an integer into the int64 range: Go's wrap-around `int64`
arithmetic. -/
def wrap64 (x : Int) : Int := (x + 2 ^ 63) % 2 ^ 64 - 2 ^ 63

/-- `strconv.ParseUint(s, 10, 64)` with its 64-bit range check: a digit
string whose value reaches 2^64 is a range error (Go detects the overflow
inside the digit loop; on digit-only strings that is observably a check of
the final value). -/
def parseUintGo64 (s : List Nat) : Option Nat :=
  (parseUintGo s).bind fun n => if n < 2 ^ 64 then some n else none

/-- `strconv.ParseInt(s, 10, 64)` with its 64-bit range check: after sign
handling the magnitude must be below 2^63, with 2^63 itself admitted for a
negative input. -/
def parseIntGo64 : List Nat → Option Int
  | [] => none
  | c :: rest =>
    if c = 43 then
      (parseUintGo64 rest).bind fun n =>
        if n < 2 ^ 63 then some ((n : Int)) else none
    else if c = 45 then
      (parseUintGo64 rest).bind fun n =>
        if n ≤ 2 ^ 63 then some (-(n : Int)) else none
    else
      (parseUintGo64 (c :: rest)).bind fun n =>
        if n < 2 ^ 63 then some ((n : Int)) else none

/-- Body of `Money.UnmarshalText` with the int64 range check and the int64
wrap-around of `mzn*100 ± cents` made explicit. -/
def parseMoneyBody64 (s : List Nat) : Except MoneyErr Money :=
  if s.contains 46 then
    if (splitChar 46 s).length ≠ 2 then .error .invalidAmount
    else
      match parseIntGo64 ((splitChar 46 s).headD []) with
      | none => .error .invalidAmount
      | some mzn =>
        match parseIntGo64 (normCentPart ((splitChar 46 s).getD 1 [])) with
        | none => .error .invalidAmount
        | some cents =>
          if s.headD 0 = 45 then .ok ⟨wrap64 (mzn * 100 - cents)⟩
          else .ok ⟨wrap64 (mzn * 100 + cents)⟩
  else
    match parseIntGo64 s with
    | none => .error .invalidAmount
    | some centavos => .ok ⟨centavos⟩

/-- `Money.UnmarshalText` with the int64 range check and wrap-around of the
host integer width made explicit. -/
def Money.UnmarshalText64 (data : List Nat) : Except MoneyErr Money :=
  let s := trimSpace data
  if s = [] then .ok ⟨0⟩
  else parseMoneyBody64 (trimSpace (trimSuffix (trimSuffix s strSpaceMZN) strMZN))

theorem wrap64_eq_self {x : Int} (h1 : -(2 ^ 63) ≤ x) (h2 : x < 2 ^ 63) :
    wrap64 x = x := by
  rw [wrap64]
  omega

theorem parseUintGo64_eq {s : List Nat} {v : ℕ} (h : parseUintGo s = some v)
    (hv : v < 2 ^ 64) : parseUintGo64 s = some v := by
  rw [parseUintGo64, h]
  simp
  omega

theorem parseIntGo64_digit_head {c : Nat} (rest : List Nat)
    (h1 : 48 ≤ c) (h2 : c ≤ 57) {v : ℕ}
    (h : parseUintGo (c :: rest) = some v) (hv : v < 2 ^ 63) :
    parseIntGo64 (c :: rest) = some ((v : ℤ)) := by
  simp only [parseIntGo64]
  rw [if_neg (by omega), if_neg (by omega), parseUintGo64_eq h (by omega)]
  simp
  omega

theorem parseIntGo64_neg (ds : List Nat) {v : ℕ}
    (h : parseUintGo ds = some v) (hv : v ≤ 2 ^ 63) :
    parseIntGo64 (45 :: ds) = some (-(v : ℤ)) := by
  simp only [parseIntGo64]
  rw [parseUintGo64_eq h (by omega)]
  simp
  omega

theorem parseIntGo64_plus (ds : List Nat) {v : ℕ}
    (h : parseUintGo ds = some v) (hv : v < 2 ^ 63) :
    parseIntGo64 (43 :: ds) = some ((v : ℤ)) := by
  simp only [parseIntGo64]
  rw [parseUintGo64_eq h (by omega)]
  simp
  omega

/-- Parsing `<pre>.` (a dot-free sign-and-digits head whose scaled value
fits int64) gives 100 times the signed value of `pre`; the empty minor part
defaults to "00". -/
theorem parseMoneyBody64_dot {pre : List Nat} (h46 : (46 : ℕ) ∉ pre)
    {w : ℤ} (hparse : parseIntGo64 pre = some w)
    (hlo : -(2 ^ 63) ≤ w * 100) (hhi : w * 100 < 2 ^ 63) :
    parseMoneyBody64 (pre ++ [46]) = .ok ⟨w * 100⟩ := by
  have hcont : (pre ++ [46]).contains 46 = true :=
    List.elem_eq_true_of_mem (by simp)
  have hsplit : splitChar 46 (pre ++ [46]) = [pre, []] :=
    splitChar_sep (c := 46) pre [] h46
  rw [parseMoneyBody64, if_pos hcont, hsplit, if_neg (by simp)]
  have hcent : parseIntGo64 (normCentPart []) = some 0 := by rfl
  simp only [List.headD_cons, List.getD_cons_succ, List.getD_cons_zero, hparse, hcent]
  split
  · refine congrArg Except.ok (congrArg Money.mk ?_)
    rw [show w * 100 - 0 = w * 100 by ring]
    exact wrap64_eq_self hlo hhi
  · refine congrArg Except.ok (congrArg Money.mk ?_)
    rw [show w * 100 + 0 = w * 100 by ring]
    exact wrap64_eq_self hlo hhi

/-- C10 counterexample: the input "99999999999999999999." — a twenty-digit
major part whose value exceeds the int64 range — is rejected by the 64-bit
range check of `strconv.ParseInt` and does not parse to major units without
error. -/
theorem dot_form_cex :
    Money.UnmarshalText64
        [57, 57, 57, 57, 57, 57, 57, 57, 57, 57,
         57, 57, 57, 57, 57, 57, 57, 57, 57, 57, 46] = .error .invalidAmount ∧
    ∀ mny : Money, ¬ Money.UnmarshalText64
        [57, 57, 57, 57, 57, 57, 57, 57, 57, 57,
         57, 57, 57, 57, 57, 57, 57, 57, 57, 57, 46] = .ok mny := by
  constructor
  · rfl
  · intro mny h
    rw [show Money.UnmarshalText64
          [57, 57, 57, 57, 57, 57, 57, 57, 57, 57,
           57, 57, 57, 57, 57, 57, 57, 57, 57, 57, 46]
        = Except.error MoneyErr.invalidAmount from rfl] at h
    exact Except.noConfusion h

/-- C10 amended: a decimal input with an empty minor part (`"<digits>."`,
optionally sign-prefixed) parses without error to the digits' value `v` in
major units and zero centavos whenever `100·v` fits int64; a major part
outside the int64 range is a range error, and for `100·v` beyond int64 the
product wraps, so the bound is the exact guarantee the code gives. -/
theorem dot_form_amended (ds : List Nat) (hne : ds ≠ [])
    (hdig : ∀ c ∈ ds, 48 ≤ c ∧ c ≤ 57)
    (v : ℕ) (hv : parseUintGo ds = some v) (hbound : 100 * v < 2 ^ 63) :
    Money.UnmarshalText64 (ds ++ [46]) = .ok ⟨(v : ℤ) * 100⟩ ∧
    Money.UnmarshalText64 (45 :: (ds ++ [46])) = .ok ⟨-(v : ℤ) * 100⟩ ∧
    Money.UnmarshalText64 (43 :: (ds ++ [46])) = .ok ⟨(v : ℤ) * 100⟩ := by
  have hvlt : v < 2 ^ 63 := by omega
  obtain ⟨c0, t, hct⟩ := List.exists_cons_of_ne_nil hne
  have hc0 := hdig c0 (by rw [hct]; exact List.mem_cons_self _ _)
  have h46ds : (46 : ℕ) ∉ ds := fun hm => by have := hdig _ hm; omega
  have hlo1 : -(2 ^ 63) ≤ ((v : ℤ)) * 100 := by omega
  have hhi1 : ((v : ℤ)) * 100 < 2 ^ 63 := by omega
  have hlo2 : -(2 ^ 63) ≤ (-(v : ℤ)) * 100 := by omega
  have hhi2 : (-(v : ℤ)) * 100 < 2 ^ 63 := by omega
  refine ⟨?_, ?_, ?_⟩
  · have hh : (ds ++ [46]).head? = some c0 := by
      rw [head?_append_left _ hne, hct]
      rfl
    have hl : (ds ++ [46]).getLast? = some 46 := List.getLast?_concat _
    obtain ⟨hts, hpipe⟩ := trim_pipeline_noop hh (by omega) hl (by omega) (by omega)
    simp only [Money.UnmarshalText64]
    rw [if_neg (by rw [hts]; simp), hpipe]
    have hpi : parseIntGo64 ds = some ((v : ℤ)) := by
      rw [hct] at hv ⊢
      exact parseIntGo64_digit_head t hc0.1 hc0.2 hv hvlt
    exact parseMoneyBody64_dot h46ds hpi hlo1 hhi1
  · have h46pre : (46 : ℕ) ∉ 45 :: ds := by
      intro hm
      rcases List.mem_cons.mp hm with h | h
      · omega
      · exact h46ds h
    have hh : ((45 :: ds) ++ [46]).head? = some 45 := rfl
    have hl : ((45 :: ds) ++ [46]).getLast? = some 46 := List.getLast?_concat _
    obtain ⟨hts, hpipe⟩ := trim_pipeline_noop hh (by omega) hl (by omega) (by omega)
    have hshape : 45 :: (ds ++ [46]) = (45 :: ds) ++ [46] := rfl
    rw [hshape]
    simp only [Money.UnmarshalText64]
    rw [if_neg (by rw [hts]; simp), hpipe]
    have hpi : parseIntGo64 (45 :: ds) = some (-(v : ℤ)) :=
      parseIntGo64_neg ds hv (by omega)
    exact parseMoneyBody64_dot h46pre hpi hlo2 hhi2
  · have h46pre : (46 : ℕ) ∉ 43 :: ds := by
      intro hm
      rcases List.mem_cons.mp hm with h | h
      · omega
      · exact h46ds h
    have hh : ((43 :: ds) ++ [46]).head? = some 43 := rfl
    have hl : ((43 :: ds) ++ [46]).getLast? = some 46 := List.getLast?_concat _
    obtain ⟨hts, hpipe⟩ := trim_pipeline_noop hh (by omega) hl (by omega) (by omega)
    have hshape : 43 :: (ds ++ [46]) = (43 :: ds) ++ [46] := rfl
    rw [hshape]
    simp only [Money.UnmarshalText64]
    rw [if_neg (by rw [hts]; simp), hpipe]
    have hpi : parseIntGo64 (43 :: ds) = some ((v : ℤ)) :=
      parseIntGo64_plus ds hv hvlt
    exact parseMoneyBody64_dot h46pre hpi hlo1 hhi1

/-- C10 witness: "150." and its signed variants parse to ±15000 centavos,
the bound discharged concretely. -/
theorem dot_form_amended_witness :
    Money.UnmarshalText64 ([49, 53, 48] ++ [46]) = .ok ⟨(150 : ℤ) * 100⟩ ∧
    Money.UnmarshalText64 (45 :: ([49, 53, 48] ++ [46])) = .ok ⟨-(150 : ℤ) * 100⟩ ∧
    Money.UnmarshalText64 (43 :: ([49, 53, 48] ++ [46])) = .ok ⟨(150 : ℤ) * 100⟩ :=
  dot_form_amended [49, 53, 48] (by simp) (by decide) 150 (by rfl) (by decide)

end money

namespace ids

/-- The single identifier parsing error (`ids.ErrInvalidUUID`). -/
inductive UUIDErr where
  | invalidUUID
deriving DecidableEq, Repr

/-- `ids.UUID`: 16 raw bytes (`type UUID [16]byte`). -/
structure UUID where
  bytes : List Nat
deriving DecidableEq, Repr

/-- The package-level zero value (`var zeroUUID UUID`). -/
def zeroUUID : UUID := ⟨List.replicate 16 0⟩

/-- `UUID.IsZero`. -/
def UUID.IsZero (u : UUID) : Bool := u == zeroUUID

/-- `UUID.Bytes` (a copy of the raw bytes). -/
def UUID.Bytes (u : UUID) : List Nat := u.bytes

/-- `ids.NewUUID` as a function of the 16 bytes read from the entropy
source: overwrite byte 6's upper nibble with 0x4 and byte 8's upper two
bits with 0b10. -/
def NewUUID (r : List Nat) : UUID :=
  let a := r.set 6 ((r.getD 6 0 &&& 15) ||| 64)
  ⟨a.set 8 ((a.getD 8 0 &&& 63) ||| 128)⟩

/-- Lowercase hex digit byte of a value below 16 (`encoding/hex` alphabet). -/
def hexDigitChar (n : Nat) : Nat := if n < 10 then 48 + n else 87 + n

/-- `hex.Encode`: two lowercase hex bytes per input byte. -/
def hexEncodeBytes : List Nat → List Nat
  | [] => []
  | b :: rest => hexDigitChar (b / 16) :: hexDigitChar (b % 16) :: hexEncodeBytes rest

/-- Hex digit value of a byte, upper or lower case (`encoding/hex`). -/
def decodeHexDigit (c : Nat) : Option Nat :=
  if 48 ≤ c ∧ c ≤ 57 then some (c - 48)
  else if 97 ≤ c ∧ c ≤ 102 then some (c - 87)
  else if 65 ≤ c ∧ c ≤ 70 then some (c - 55)
  else none

/-- `hex.DecodeString`: pairs of hex digits; an odd length or a non-hex
byte is a decode error. -/
def hexDecodeBytes : List Nat → Option (List Nat)
  | [] => some []
  | [_] => none
  | c1 :: c2 :: rest =>
    match decodeHexDigit c1, decodeHexDigit c2, hexDecodeBytes rest with
    | some hi, some lo, some bs => some ((16 * hi + lo) :: bs)
    | _, _, _ => none

/-- Removal of the four hyphens of the 36-byte form
(`s[0:8] + s[9:13] + s[14:18] + s[19:23] + s[24:]`). -/
def dehyphenate (s : List Nat) : List Nat :=
  s.take 8 ++ ((s.drop 9).take 4 ++ ((s.drop 14).take 4 ++
    ((s.drop 19).take 4 ++ s.drop 24)))

/-- `ids.ParseUUID`: the 36-byte hyphenated form (hyphens exactly at
positions 8, 13, 18, 23) or the 32-byte compact form; anything else is the
single invalid-format error. -/
def ParseUUID (s : List Nat) : Except UUIDErr UUID :=
  if s.length = 36 then
    if s.getD 8 0 = 45 ∧ s.getD 13 0 = 45 ∧ s.getD 18 0 = 45 ∧ s.getD 23 0 = 45 then
      match hexDecodeBytes (dehyphenate s) with
      | some bs => .ok ⟨bs⟩
      | none => .error .invalidUUID
    else .error .invalidUUID
  else if s.length = 32 then
    match hexDecodeBytes s with
    | some bs => .ok ⟨bs⟩
    | none => .error .invalidUUID
  else .error .invalidUUID

/-- `UUID.String`: the 8-4-4-4-12 lowercase hyphenated form. -/
def UUID.String (u : UUID) : List Nat :=
  hexEncodeBytes (u.bytes.take 4) ++ [45] ++
    hexEncodeBytes ((u.bytes.drop 4).take 2) ++ [45] ++
    hexEncodeBytes ((u.bytes.drop 6).take 2) ++ [45] ++
    hexEncodeBytes ((u.bytes.drop 8).take 2) ++ [45] ++
    hexEncodeBytes (u.bytes.drop 10)

/-- `UUID.MarshalJSON`: the canonical string wrapped in quotes. -/
def UUID.MarshalJSON (u : UUID) : List Nat := 34 :: (u.String ++ [34])

/-- `UUID.UnmarshalJSON`: requires surrounding quote bytes, then parses the
inside. -/
def UUID.UnmarshalJSON (data : List Nat) : Except UUIDErr UUID :=
  if data.length < 2 ∨ data.headD 0 ≠ 34 ∨ data.getLastD 0 ≠ 34 then
    .error .invalidUUID
  else ParseUUID (data.drop 1).dropLast

/-- `UUID.UnmarshalText`: parses the raw bytes as a UUID string. -/
def UUID.UnmarshalText (data : List Nat) : Except UUIDErr UUID := ParseUUID data

/-- The dynamic values an SQL driver hands to `UUID.Scan` (the claims in
scope exercise string, byte-slice and NULL sources). -/
inductive ScanSrc where
  | str (s : List Nat)
  | bytes (b : List Nat)
  | null
deriving DecidableEq, Repr

/-- `UUID.Scan`: a string parses, a 16-byte value is copied raw, any other
byte slice parses as text, SQL NULL yields the zero value. -/
def UUID.Scan (src : ScanSrc) : Except UUIDErr UUID :=
  match src with
  | .str s => ParseUUID s
  | .bytes b => if b.length = 16 then .ok ⟨b⟩ else ParseUUID b
  | .null => .ok (UUID.mk (List.replicate 16 0))

/-! ### Hex round-trip lemmas -/

theorem decodeHexDigit_hexDigitChar {x : ℕ} (h : x < 16) :
    decodeHexDigit (hexDigitChar x) = some x := by
  interval_cases x <;> rfl

theorem hexDecode_encode : ∀ (l : List Nat), (∀ b ∈ l, b < 256) →
    hexDecodeBytes (hexEncodeBytes l) = some l := by
  intro l
  induction l with
  | nil => intro _; rfl
  | cons b rest ih =>
    intro hb
    have hblt := hb b (List.mem_cons_self _ _)
    have h1 : b / 16 < 16 := by omega
    have h2 : b % 16 < 16 := by omega
    rw [hexEncodeBytes]
    simp only [hexDecodeBytes, decodeHexDigit_hexDigitChar h1,
      decodeHexDigit_hexDigitChar h2,
      ih (fun x hx => hb x (List.mem_cons_of_mem _ hx))]
    congr 2
    omega

theorem hexEncodeBytes_length : ∀ l : List Nat,
    (hexEncodeBytes l).length = 2 * l.length := by
  intro l
  induction l with
  | nil => rfl
  | cons b rest ih =>
    rw [hexEncodeBytes]
    simp only [List.length_cons, ih]
    omega

theorem list_len16 {l : List Nat} (h : l.length = 16) :
    ∃ b0 b1 b2 b3 b4 b5 b6 b7 b8 b9 b10 b11 b12 b13 b14 b15 : Nat,
      l = [b0, b1, b2, b3, b4, b5, b6, b7, b8, b9, b10, b11, b12, b13, b14, b15] := by
  rcases l with _ | ⟨b0, l⟩
  · simp at h
  rcases l with _ | ⟨b1, l⟩
  · simp at h
  rcases l with _ | ⟨b2, l⟩
  · simp at h
  rcases l with _ | ⟨b3, l⟩
  · simp at h
  rcases l with _ | ⟨b4, l⟩
  · simp at h
  rcases l with _ | ⟨b5, l⟩
  · simp at h
  rcases l with _ | ⟨b6, l⟩
  · simp at h
  rcases l with _ | ⟨b7, l⟩
  · simp at h
  rcases l with _ | ⟨b8, l⟩
  · simp at h
  rcases l with _ | ⟨b9, l⟩
  · simp at h
  rcases l with _ | ⟨b10, l⟩
  · simp at h
  rcases l with _ | ⟨b11, l⟩
  · simp at h
  rcases l with _ | ⟨b12, l⟩
  · simp at h
  rcases l with _ | ⟨b13, l⟩
  · simp at h
  rcases l with _ | ⟨b14, l⟩
  · simp at h
  rcases l with _ | ⟨b15, l⟩
  · simp at h
  rcases l with _ | ⟨b16, l⟩
  · exact ⟨b0, b1, b2, b3, b4, b5, b6, b7, b8, b9, b10, b11, b12, b13, b14, b15, rfl⟩
  · simp at h

set_option maxHeartbeats 1600000 in
/-- C3: parsing inverts all three encodings of any well-formed identifier:
the 36-byte hyphenated string, the 32-byte compact hex form, and the raw
16-byte binary value on the storage decode path. -/
theorem uuid_round_trip (u : UUID) (hlen : u.bytes.length = 16)
    (hb : ∀ b ∈ u.bytes, b < 256) :
    ParseUUID u.String = .ok u ∧
    ParseUUID (hexEncodeBytes u.bytes) = .ok u ∧
    UUID.Scan (.bytes u.Bytes) = .ok u := by
  refine ⟨?_, ?_, ?_⟩
  · obtain ⟨c⟩ := u
    obtain ⟨b0, b1, b2, b3, b4, b5, b6, b7, b8, b9, b10, b11, b12, b13, b14, b15, rfl⟩ := list_len16 hlen
    have key := hexDecode_encode [b0, b1, b2, b3, b4, b5, b6, b7, b8, b9, b10, b11, b12, b13, b14, b15] hb
    have hshape : ParseUUID (UUID.String ⟨[b0, b1, b2, b3, b4, b5, b6, b7, b8, b9, b10, b11, b12, b13, b14, b15]⟩)
        = (match hexDecodeBytes (hexEncodeBytes [b0, b1, b2, b3, b4, b5, b6, b7, b8, b9, b10, b11, b12, b13, b14, b15]) with
           | some bs => Except.ok (UUID.mk bs)
           | none => Except.error UUIDErr.invalidUUID) := rfl
    rw [hshape]
    simp only [key]
  · have hlen2 : (hexEncodeBytes u.bytes).length = 32 := by
      rw [hexEncodeBytes_length, hlen]
    rw [ParseUUID, if_neg (by omega), if_pos hlen2]
    simp only [hexDecode_encode u.bytes hb]
  · simp only [UUID.Scan, UUID.Bytes]
    rw [if_pos hlen]

/-- C3 witness: the round trip evaluated at a concrete identifier. -/
theorem uuid_round_trip_witness :
    ParseUUID (UUID.String ⟨List.range 16⟩) = .ok ⟨List.range 16⟩ ∧
    ParseUUID (hexEncodeBytes (UUID.mk (List.range 16)).bytes) = .ok ⟨List.range 16⟩ ∧
    UUID.Scan (.bytes (UUID.mk (List.range 16)).Bytes) = .ok ⟨List.range 16⟩ :=
  uuid_round_trip ⟨List.range 16⟩ (by rfl) (by decide)

theorem getD_mem_of_lt {l : List Nat} {i : ℕ} (h : i < l.length) (d : Nat) :
    l.getD i d ∈ l := by
  simp only [List.getD_eq_getElem?_getD, List.getElem?_eq_getElem h, Option.getD_some]
  exact List.getElem_mem h

set_option maxRecDepth 8192 in
theorem version_nibble_fact : ∀ x : Fin 256, ((x.val &&& 15) ||| 64) / 16 = 4 := by
  decide

set_option maxRecDepth 8192 in
theorem variant_bits_fact : ∀ x : Fin 256, ((x.val &&& 63) ||| 128) / 64 = 2 := by
  decide

/-- C5: for every 16-byte entropy output, the generated identifier carries
version nibble 0x4 in byte 6 and variant bits 0b10 in byte 8, and is never
the all-zero value. -/
theorem new_uuid_spec (r : List Nat) (hlen : r.length = 16)
    (hb : ∀ b ∈ r, b < 256) :
    (NewUUID r).bytes.getD 6 0 / 16 = 4 ∧
    (NewUUID r).bytes.getD 8 0 / 64 = 2 ∧
    (NewUUID r).IsZero = false := by
  have h6lt : (6 : ℕ) < r.length := by omega
  have h8lt : (8 : ℕ) < r.length := by omega
  have hr6 : r.getD 6 0 < 256 := hb _ (getD_mem_of_lt h6lt 0)
  have hr8 : r.getD 8 0 < 256 := hb _ (getD_mem_of_lt h8lt 0)
  have hbytes : (NewUUID r).bytes
      = (r.set 6 ((r.getD 6 0 &&& 15) ||| 64)).set 8
          (((r.set 6 ((r.getD 6 0 &&& 15) ||| 64)).getD 8 0 &&& 63) ||| 128) := rfl
  have ha8 : (r.set 6 ((r.getD 6 0 &&& 15) ||| 64)).getD 8 0 = r.getD 8 0 := by
    simp only [List.getD_eq_getElem?_getD,
      List.getElem?_set_ne (show (6 : ℕ) ≠ 8 by omega)]
  have h6 : (NewUUID r).bytes.getD 6 0 = (r.getD 6 0 &&& 15) ||| 64 := by
    rw [hbytes, List.getD_eq_getElem?_getD,
      List.getElem?_set_ne (show (8 : ℕ) ≠ 6 by omega),
      List.getElem?_set_self (show (6 : ℕ) < r.length by omega)]
    rfl
  have h8 : (NewUUID r).bytes.getD 8 0 = (r.getD 8 0 &&& 63) ||| 128 := by
    rw [hbytes, ha8, List.getD_eq_getElem?_getD,
      List.getElem?_set_self (by simp [hlen])]
    rfl
  have hdiv6 : (NewUUID r).bytes.getD 6 0 / 16 = 4 := by
    rw [h6]
    exact version_nibble_fact ⟨r.getD 6 0, hr6⟩
  have hdiv8 : (NewUUID r).bytes.getD 8 0 / 64 = 2 := by
    rw [h8]
    exact variant_bits_fact ⟨r.getD 8 0, hr8⟩
  refine ⟨hdiv6, hdiv8, ?_⟩
  rw [UUID.IsZero, beq_eq_false_iff_ne]
  intro hz
  have h0 : (NewUUID r).bytes.getD 6 0 = 0 := by
    rw [hz]
    rfl
  rw [h0] at hdiv6
  omega

/-- C5 witness: generation from a concrete entropy block. -/
theorem new_uuid_spec_witness :
    (NewUUID (List.range 16)).bytes.getD 6 0 / 16 = 4 ∧
    (NewUUID (List.range 16)).bytes.getD 8 0 / 64 = 2 ∧
    (NewUUID (List.range 16)).IsZero = false :=
  new_uuid_spec (List.range 16) (by rfl) (by decide)

/-! ### Parse error characterization -/

/-- Hexadecimal digit bytes, upper or lower case. -/
def isHexDigit (c : Nat) : Prop :=
  (48 ≤ c ∧ c ≤ 57) ∨ (97 ≤ c ∧ c ≤ 102) ∨ (65 ≤ c ∧ c ≤ 70)

instance (c : Nat) : Decidable (isHexDigit c) := by
  unfold isHexDigit
  infer_instance

/-- The two accepted input shapes: the 32-byte all-hex compact form, or the
36-byte form with hyphens exactly at positions 8, 13, 18 and 23 and hex
digits everywhere else. -/
def validUUIDStr (s : List Nat) : Prop :=
  (s.length = 32 ∧ ∀ c ∈ s, isHexDigit c) ∨
  (s.length = 36 ∧ s.getD 8 0 = 45 ∧ s.getD 13 0 = 45 ∧ s.getD 18 0 = 45 ∧
    s.getD 23 0 = 45 ∧ ∀ c ∈ dehyphenate s, isHexDigit c)

instance (s : List Nat) : Decidable (validUUIDStr s) := by
  unfold validUUIDStr
  infer_instance

theorem decodeHexDigit_isSome (c : Nat) :
    (decodeHexDigit c).isSome = true ↔ isHexDigit c := by
  rw [decodeHexDigit, isHexDigit]
  split_ifs with h1 h2 h3 <;> simp <;> omega

theorem hexDecodeBytes_cons_cons (c1 c2 : Nat) (rest : List Nat) :
    hexDecodeBytes (c1 :: c2 :: rest)
      = match decodeHexDigit c1, decodeHexDigit c2, hexDecodeBytes rest with
        | some hi, some lo, some bs => some ((16 * hi + lo) :: bs)
        | _, _, _ => none := rfl

theorem hexDecodeBytes_spec : ∀ (n : ℕ) (l : List Nat), l.length ≤ n →
    l.length % 2 = 0 →
    (((hexDecodeBytes l).isSome = true ↔ ∀ c ∈ l, isHexDigit c) ∧
     ∀ bs, hexDecodeBytes l = some bs → bs.length = l.length / 2) := by
  intro n
  induction n with
  | zero =>
    intro l hl _
    have hnil : l = [] := by
      cases l with
      | nil => rfl
      | cons a t => simp at hl
    subst hnil
    refine ⟨by simp [hexDecodeBytes], fun bs h => ?_⟩
    rw [show hexDecodeBytes [] = some [] from rfl] at h
    injection h with h
    rw [← h]
    rfl
  | succ n ih =>
    intro l hl hev
    match l with
    | [] =>
      refine ⟨by simp [hexDecodeBytes], fun bs h => ?_⟩
      rw [show hexDecodeBytes [] = some [] from rfl] at h
      injection h with h
      rw [← h]
      rfl
    | [x] => simp at hev
    | c1 :: c2 :: rest =>
      have hr1 : rest.length ≤ n := by simp at hl; omega
      have hr2 : rest.length % 2 = 0 := by simp at hev; omega
      obtain ⟨ih1, ih2⟩ := ih rest hr1 hr2
      rcases hd1 : decodeHexDigit c1 with _ | v1
      · have hnh : ¬ isHexDigit c1 := by
          rw [← decodeHexDigit_isSome]
          simp [hd1]
        simp only [hexDecodeBytes_cons_cons, hd1]
        refine ⟨?_, fun bs h => by simp at h⟩
        simp only [Option.isSome_none, Bool.false_eq_true, false_iff]
        intro h
        exact hnh (h c1 (by simp))
      · rcases hd2 : decodeHexDigit c2 with _ | v2
        · have hnh : ¬ isHexDigit c2 := by
            rw [← decodeHexDigit_isSome]
            simp [hd2]
          simp only [hexDecodeBytes_cons_cons, hd1, hd2]
          refine ⟨?_, fun bs h => by simp at h⟩
          simp only [Option.isSome_none, Bool.false_eq_true, false_iff]
          intro h
          exact hnh (h c2 (by simp))
        · rcases hrec : hexDecodeBytes rest with _ | bs0
          · have hnall : ¬ ∀ c ∈ rest, isHexDigit c := by
              rw [← ih1]
              simp [hrec]
            simp only [hexDecodeBytes_cons_cons, hd1, hd2, hrec]
            refine ⟨?_, fun bs h => by simp at h⟩
            simp only [Option.isSome_none, Bool.false_eq_true, false_iff]
            intro h
            exact hnall (fun c hc => h c (by simp [hc]))
          · have h1 : isHexDigit c1 := by
              rw [← decodeHexDigit_isSome]
              simp [hd1]
            have h2 : isHexDigit c2 := by
              rw [← decodeHexDigit_isSome]
              simp [hd2]
            have hall : ∀ c ∈ rest, isHexDigit c := ih1.mp (by simp [hrec])
            have hlen0 : bs0.length = rest.length / 2 := ih2 bs0 hrec
            simp only [hexDecodeBytes_cons_cons, hd1, hd2, hrec]
            refine ⟨?_, fun bs h => ?_⟩
            · simp only [Option.isSome_some, true_iff]
              intro c hc
              rcases List.mem_cons.mp hc with h | h
              · rw [h]; exact h1
              rcases List.mem_cons.mp h with h | h
              · rw [h]; exact h2
              · exact hall c h
            · injection h with h
              rw [← h]
              simp only [List.length_cons, hlen0]
              omega

theorem dehyphenate_length {s : List Nat} (h : s.length = 36) :
    (dehyphenate s).length = 32 := by
  rw [dehyphenate]
  simp only [List.length_append, List.length_take, List.length_drop, h]
  omega

/-- C7: `ParseUUID` returns the single invalid-format error exactly when the
input is not one of the two accepted shapes (wrong length; a 36-byte form
with any of positions 8, 13, 18, 23 not a hyphen; or a non-hex byte among
the remaining characters, either case being accepted); every successful
parse carries exactly 16 decoded bytes. -/
theorem parse_uuid_spec (s : List Nat) :
    (ParseUUID s = .error .invalidUUID ↔ ¬ validUUIDStr s) ∧
    (validUUIDStr s → ∃ u, ParseUUID s = .ok u ∧ u.bytes.length = 16) := by
  by_cases h36 : s.length = 36
  · by_cases hhy : s.getD 8 0 = 45 ∧ s.getD 13 0 = 45 ∧ s.getD 18 0 = 45 ∧
        s.getD 23 0 = 45
    · have hdl := dehyphenate_length h36
      obtain ⟨hiff, hlen⟩ := hexDecodeBytes_spec (dehyphenate s).length
        (dehyphenate s) le_rfl (by omega)
      have hvalid : validUUIDStr s ↔ ∀ c ∈ dehyphenate s, isHexDigit c := by
        rw [validUUIDStr]
        constructor
        · rintro (⟨h32, _⟩ | ⟨_, _, _, _, _, hx⟩)
          · omega
          · exact hx
        · intro hx
          exact Or.inr ⟨h36, hhy.1, hhy.2.1, hhy.2.2.1, hhy.2.2.2, hx⟩
      rcases hdec : hexDecodeBytes (dehyphenate s) with _ | bs
      · have hnall : ¬ ∀ c ∈ dehyphenate s, isHexDigit c := by
          rw [← hiff]
          simp [hdec]
        rw [ParseUUID, if_pos h36, if_pos hhy]
        simp only [hdec]
        refine ⟨by simp [hvalid, hnall], fun hv => absurd (hvalid.mp hv) hnall⟩
      · have hall : ∀ c ∈ dehyphenate s, isHexDigit c := hiff.mp (by simp [hdec])
        have hbs : bs.length = 16 := by
          have := hlen bs hdec
          omega
        rw [ParseUUID, if_pos h36, if_pos hhy]
        simp only [hdec]
        refine ⟨?_, fun _ => ⟨⟨bs⟩, rfl, hbs⟩⟩
        constructor
        · intro h
          exact absurd h (by simp)
        · intro hnv
          exact absurd (hvalid.mpr hall) hnv
    · rw [ParseUUID, if_pos h36, if_neg hhy]
      have hnv : ¬ validUUIDStr s := by
        rintro (⟨h32, _⟩ | ⟨_, hy1, hy2, hy3, hy4, _⟩)
        · omega
        · exact hhy ⟨hy1, hy2, hy3, hy4⟩
      exact ⟨by simp [hnv], fun hv => absurd hv hnv⟩
  · by_cases h32 : s.length = 32
    · obtain ⟨hiff, hlen⟩ := hexDecodeBytes_spec s.length s le_rfl (by omega)
      have hvalid : validUUIDStr s ↔ ∀ c ∈ s, isHexDigit c := by
        rw [validUUIDStr]
        constructor
        · rintro (⟨_, hx⟩ | ⟨h36x, _⟩)
          · exact hx
          · omega
        · intro hx
          exact Or.inl ⟨h32, hx⟩
      rcases hdec : hexDecodeBytes s with _ | bs
      · have hnall : ¬ ∀ c ∈ s, isHexDigit c := by
          rw [← hiff]
          simp [hdec]
        rw [ParseUUID, if_neg h36, if_pos h32]
        simp only [hdec]
        refine ⟨by simp [hvalid, hnall], fun hv => absurd (hvalid.mp hv) hnall⟩
      · have hall : ∀ c ∈ s, isHexDigit c := hiff.mp (by simp [hdec])
        have hbs : bs.length = 16 := by
          have := hlen bs hdec
          omega
        rw [ParseUUID, if_neg h36, if_pos h32]
        simp only [hdec]
        refine ⟨?_, fun _ => ⟨⟨bs⟩, rfl, hbs⟩⟩
        constructor
        · intro h
          exact absurd h (by simp)
        · intro hnv
          exact absurd (hvalid.mpr hall) hnv
    · rw [ParseUUID, if_neg h36, if_neg h32]
      have hnv : ¬ validUUIDStr s := by
        rintro (⟨h2, _⟩ | ⟨h6, _⟩) <;> omega
      exact ⟨by simp [hnv], fun hv => absurd hv hnv⟩

/-- C6 counterexample: decoding null/absent input does NOT succeed on all
three decode paths — the JSON literal null is rejected with the format
error (as is empty text input). -/
theorem null_decode_cex :
    ¬ (UUID.UnmarshalJSON [110, 117, 108, 108] = .ok zeroUUID ∧
       UUID.UnmarshalText [] = .ok zeroUUID ∧
       UUID.Scan .null = .ok zeroUUID) := by
  intro h
  have h1 := h.1
  rw [show UUID.UnmarshalJSON [110, 117, 108, 108]
      = Except.error UUIDErr.invalidUUID from rfl] at h1
  exact Except.noConfusion h1

/-- C6 amended: only the SQL-NULL storage path decodes an absent value to
the zero identifier without error; the JSON literal null and empty text
input both return the invalid-format error. -/
theorem null_decode_amended :
    UUID.Scan .null = .ok zeroUUID ∧
    UUID.UnmarshalJSON [110, 117, 108, 108] = .error .invalidUUID ∧
    UUID.UnmarshalText [] = .error .invalidUUID :=
  ⟨rfl, rfl, rfl⟩

/-- C7 witness: the canonical fixture string parses to 16 bytes, and a
2-byte input is rejected with the single format error. -/
theorem parse_uuid_spec_witness :
    (∃ u, ParseUUID [53, 53, 48, 101, 56, 52, 48, 48, 45, 101, 50, 57, 98, 45, 52, 49, 100, 52, 45, 97, 55, 49, 54, 45, 52, 52, 54, 54, 53, 53, 52, 52, 48, 48, 48, 48] = .ok u ∧ u.bytes.length = 16) ∧
    ParseUUID [49, 50] = .error .invalidUUID :=
  ⟨(parse_uuid_spec [53, 53, 48, 101, 56, 52, 48, 48, 45, 101, 50, 57, 98, 45, 52, 49, 100, 52, 45, 97, 55, 49, 54, 45, 52, 52, 54, 54, 53, 53, 52, 52, 48, 48, 48, 48]).2 (by decide),
   (parse_uuid_spec [49, 50]).1.mpr (by decide)⟩

end ids

namespace money

/-! ### Binary64 model and `FromMZN` (claim C9)

`FromMZN` is the only place floating-point arithmetic enters the package.
Binary64 values are modelled exactly as scaled integers `m * 2^e`; each Go
operation rounds its exact result to 53 significant bits, round to nearest
with ties to even (IEEE 754 in the normal range, which covers all values
these claims touch). -/

/-- Bit length of a natural number (fuel-structured so it reduces). -/
def natBitsAux : Nat → Nat → Nat
  | 0, _ => 0
  | fuel + 1, n => if n = 0 then 0 else natBitsAux fuel (n / 2) + 1

/-- Bit length of a natural number. -/
def natBits (n : Nat) : Nat := natBitsAux n n

/-- A binary64 value `m * 2^e` (sign carried by `m`). -/
structure FP where
  m : ℤ
  e : ℤ
deriving DecidableEq, Repr

/-- Round `a / b` (with `b > 0`) to the nearest integer, ties to even. -/
def rneDiv (a b : ℕ) : ℕ :=
  let q := a / b
  let r := a % b
  if 2 * r < b then q
  else if b < 2 * r then q + 1
  else if q % 2 = 0 then q else q + 1

/-- `2^e ≤ n / d` by integer cross-multiplication. -/
def le2pow (e : ℤ) (n d : ℕ) : Bool :=
  if 0 ≤ e then 2 ^ e.toNat * d ≤ n else d ≤ n * 2 ^ (-e).toNat

/-- `n / d < 2^e` by integer cross-multiplication. -/
def lt2pow (e : ℤ) (n d : ℕ) : Bool :=
  if 0 ≤ e then n < 2 ^ e.toNat * d else n * 2 ^ (-e).toNat < d

/-- Binade exponent of the positive rational `n / d`: the `e` with
`2^e ≤ n/d < 2^(e+1)` (bit-length estimate, then correction). -/
def ratExp2 (n d : ℕ) : ℤ :=
  let e0 : ℤ := (natBits n : ℤ) - natBits d
  if le2pow (e0 + 1) n d then e0 + 1
  else if lt2pow e0 n d then e0 - 1
  else e0

/-- The binary64 value nearest to the positive rational `n / d`. -/
def ratToFPpos (n d : ℕ) : FP :=
  let e := ratExp2 n d
  let m := if 0 ≤ 52 - e then rneDiv (n * 2 ^ (52 - e).toNat) d
           else rneDiv n (d * 2 ^ (e - 52).toNat)
  ⟨(m : ℤ), e - 52⟩

/-- A non-negative Go float64 literal with decimal value `n / d` (Go
converts untyped decimal constants to the nearest binary64). -/
def goFloat (n d : ℕ) : FP := if n = 0 then ⟨0, 0⟩ else ratToFPpos n d

/-- Round an exact dyadic `m * 2^e` to 53 significant bits, ties to even. -/
def roundFP (m : ℤ) (e : ℤ) : FP :=
  if m = 0 then ⟨0, 0⟩
  else
    let a := m.natAbs
    let bits := natBits a
    if bits ≤ 53 then ⟨m, e⟩
    else
      let shift := bits - 53
      ⟨m.sign * (rneDiv a (2 ^ shift) : ℤ), e + shift⟩

/-- Binary64 multiplication: round the exact product. -/
def fmulFP (x y : FP) : FP := roundFP (x.m * y.m) (x.e + y.e)

/-- Binary64 addition: round the exact (alignment-exact) sum. -/
def faddFP (x y : FP) : FP :=
  let e := min x.e y.e
  roundFP (x.m * 2 ^ (x.e - e).toNat + y.m * 2 ^ (y.e - e).toNat) e

/-- Binary64 subtraction. -/
def fsubFP (x y : FP) : FP := faddFP x ⟨-y.m, y.e⟩

/-- Go `int64(f)`: truncation toward zero. -/
def truncFP (x : FP) : ℤ :=
  if 0 ≤ x.e then x.m * 2 ^ x.e.toNat
  else x.m.tdiv (2 ^ (-x.e).toNat)

/-- `money.FromMZN`: multiply the float by 100 and round half away from
zero (`int64(mzn*100 + 0.5)`, or with `- 0.5` for negative inputs). -/
def FromMZN (mzn : FP) : Money :=
  if mzn.m < 0 then ⟨truncFP (fsubFP (fmulFP mzn (goFloat 100 1)) (goFloat 5 10))⟩
  else ⟨truncFP (faddFP (fmulFP mzn (goFloat 100 1)) (goFloat 5 10))⟩

set_option maxRecDepth 100000 in
/-- C9: constructing Money from the float literals 0.1 and 0.2 and adding
yields exactly 30 centavos, not a floating-point artifact. -/
theorem precision_safety :
    (FromMZN (goFloat 1 10)).Add (FromMZN (goFloat 2 10)) = FromCentavos 30 := by
  decide

end money
